import Mathlib

set_option maxHeartbeats 1000000

/-! Shallow embedding of the core of the repository: the `TriMesh` operations
of `menpo/shape/mesh/base.py` and the `PCAModel` operations of
`pybug/model/pca.py`, together with theorems settling the specification
claims about them.

Conventions of the embedding:
* a numpy `(n, d)` coordinate array is a `List` of point rows; the masking
  machinery never inspects a coordinate, so the point row type is a type
  parameter `α` (instantiated with `List ℝ` for the geometric queries);
* a triangle-list row is the structure `Tri` of three point indices;
* machine floats are modelled by `ℚ` where the code only performs field
  arithmetic (eigenvalue bookkeeping) and by `ℝ` where square roots occur
  (whitening, 3D areas);
* a method that raises `ValueError` returns `none`. -/

/-- One row of a triangle list: an ordered triple (a, b, c) of point indices. -/
structure Tri where
  a : ℕ
  b : ℕ
  c : ℕ
  deriving DecidableEq, Repr

/-- `TriMesh`: a point array together with a triangle list.  The point row
type is a parameter; the connectivity operations never look inside it. -/
structure TriMesh (α : Type) where
  points : List α
  trilist : List Tri
  deriving DecidableEq

/-- Sorting of one index pair into ascending order: `np.sort` acting on the
last axis of an `(m, 2)` array, restricted to a single row. -/
def sortPair (p : ℕ × ℕ) : ℕ × ℕ :=
  if p.1 ≤ p.2 then p else (p.2, p.1)

/-- The `3 * n_tris` sorted edge pairs built by `boundary_tri_index`:
the blocks `trilist[:, [0, 1]]`, `trilist[:, [0, 2]]`, `trilist[:, [1, 2]]`
stacked in that order and sorted per row. -/
def boundaryEdgePairs (tl : List Tri) : List (ℕ × ℕ) :=
  (tl.map fun t => sortPair (t.a, t.b)) ++
    (tl.map fun t => sortPair (t.a, t.c)) ++
      (tl.map fun t => sortPair (t.b, t.c))

/-- `boundary_tri_index`: occurrences of edge pairs of multiplicity one are
located in the stacked edge list (`edges.index(e)`, well defined because the
edge occurs exactly once), mapped to their owning triangle by `% n_tris`, and
deduplicated (the Python `set`, whose iteration order we fix as first
occurrence; the callers treat the result as a set of triangle indices). -/
def boundary_tri_index (tl : List Tri) : List ℕ :=
  let edges := boundaryEdgePairs tl
  (((List.range edges.length).filter fun p =>
      edges.count (edges.getD p (0, 0)) == 1).map fun p => p % tl.length).dedup

/-- `edge_indices`: the blocks `trilist[:, [0, 1]]`, `trilist[:, [1, 2]]`,
`trilist[:, [2, 0]]` stacked in that order (AB, BC, CA). -/
def edge_indices (tl : List Tri) : List (ℕ × ℕ) :=
  (tl.map fun t => (t.a, t.b)) ++
    (tl.map fun t => (t.b, t.c)) ++
      (tl.map fun t => (t.c, t.a))

/-- `unique_edge_indicies`: each pair's endpoints sorted ascending, then
exact duplicate rows removed (the order of the survivors is explicitly
unspecified by the method's contract, so we keep first occurrences where
`np.unique` would return them sorted lexicographically). -/
def unique_edge_indicies (tl : List Tri) : List (ℕ × ℕ) :=
  ((edge_indices tl).map sortPair).dedup

/-- Boolean mask lookup, out of range reading `False`. -/
def maskGet (mask : List Bool) (v : ℕ) : Bool :=
  mask.getD v false

/-- A triangle row survives a mask when the mask holds at all three of its
vertices (`np.all(mask[adjacency_array], axis=-1)`). -/
def keep_tri (mask : List Bool) (t : Tri) : Bool :=
  maskGet mask t.a && maskGet mask t.b && maskGet mask t.c

/-- Modelled from the spec: `menpo.shape.adjacency.mask_adjacency_array` is
not under `src/`; per the spec, masking drops entirely any triangle
referencing a removed point. -/
def mask_adjacency_array (mask : List Bool) (tl : List Tri) : List Tri :=
  tl.filter (keep_tri mask)

/-- Whether a point index occurs as a vertex of a triangle row. -/
def vertex_in_tri (v : ℕ) (t : Tri) : Bool :=
  v == t.a || v == t.b || v == t.c

/-- Whether a point index occurs anywhere in a triangle list. -/
def in_tris (v : ℕ) (tl : List Tri) : Bool :=
  tl.any (vertex_in_tri v)

/-- Modelled from the spec: `menpo.shape.adjacency.reindex_adjacency_array`
is not under `src/`; per the spec the surviving triangle list is renumbered
to the new, contiguous index space, so a vertex is sent to its rank among
the distinct vertices referenced by the surviving triangles. -/
def remap_index (tl : List Tri) (v : ℕ) : ℕ :=
  ((List.range v).filter fun u => in_tris u tl).length

/-- Modelled from the spec: renumbering of every surviving triangle row. -/
def reindex_adjacency_array (tl : List Tri) : List Tri :=
  tl.map fun t => ⟨remap_index tl t.a, remap_index tl t.b, remap_index tl t.c⟩

/-- `TriMesh._isolated_mask`: the requested mask minus the points that occur
in no surviving triangle (`np.setdiff1d(np.nonzero(mask)[0], masked_adj)`
cleared back to `False`). -/
def isolated_mask (mask : List Bool) (tl : List Tri) : List Bool :=
  (List.range mask.length).map fun v =>
    maskGet mask v && in_tris v (mask_adjacency_array mask tl)

/-- Boolean-mask selection on a row list (`points[mask, :]`). -/
def boolSelect {α : Type} (xs : List α) (mask : List Bool) : List α :=
  ((xs.zip mask).filter fun p => p.2).map fun p => p.1

/-- `TriMesh.from_mask` in state-passing form: the first component is the
returned value (`none` for the `ValueError` on a length mismatch), the
second is the receiver after the call.  Every assignment in the source
targets the copy `tm`, never `self`, which the translation makes explicit. -/
def from_mask_call {α : Type} (self : TriMesh α) (mask : List Bool) :
    Option (TriMesh α) × TriMesh α :=
  if mask.length ≠ self.points.length then
    (none, self)
  else
    let tm := self
    if mask.all (fun b => b) then
      (some tm, self)
    else
      let im := isolated_mask mask self.trilist
      let masked_adj := mask_adjacency_array im self.trilist
      let tm := { tm with trilist := reindex_adjacency_array masked_adj }
      let tm := { tm with points := boolSelect tm.points im }
      (some tm, self)

/-- The value returned by `TriMesh.from_mask`. -/
def from_mask {α : Type} (self : TriMesh α) (mask : List Bool) :
    Option (TriMesh α) :=
  (from_mask_call self mask).1

/-- Number of spatial dimensions of the mesh (`points.shape[1]`). -/
def n_dims (m : TriMesh (List ℝ)) : ℕ :=
  (m.points.headD []).length

/-- Point row lookup by index. -/
def pointAt (m : TriMesh (List ℝ)) (i : ℕ) : List ℝ :=
  m.points.getD i []

/-- Coordinatewise difference of two point rows. -/
def vsub (u v : List ℝ) : List ℝ :=
  List.zipWith (fun x y => x - y) u v

/-- Scalar 2D cross product of two coordinate rows. -/
def cross2 (u v : List ℝ) : ℝ :=
  u.getD 0 0 * v.getD 1 0 - u.getD 1 0 * v.getD 0 0

/-- 3D cross product of two coordinate rows. -/
def cross3 (u v : List ℝ) : List ℝ :=
  [u.getD 1 0 * v.getD 2 0 - u.getD 2 0 * v.getD 1 0,
   u.getD 2 0 * v.getD 0 0 - u.getD 0 0 * v.getD 2 0,
   u.getD 0 0 * v.getD 1 0 - u.getD 1 0 * v.getD 0 0]

/-- Euclidean norm of a coordinate row. -/
noncomputable def vnorm (u : List ℝ) : ℝ :=
  Real.sqrt ((u.map fun x => x * x).sum)

/-- `TriMesh.tri_areas`: signed scalar half cross product for 2D meshes,
half the norm of the 3D cross product for 3D meshes, `ValueError`
otherwise. -/
noncomputable def tri_areas (m : TriMesh (List ℝ)) : Option (List ℝ) :=
  if n_dims m = 2 then
    some (m.trilist.map fun t =>
      cross2 (vsub (pointAt m t.b) (pointAt m t.a))
             (vsub (pointAt m t.c) (pointAt m t.a)) * (1 / 2))
  else if n_dims m = 3 then
    some (m.trilist.map fun t =>
      vnorm (cross3 (vsub (pointAt m t.b) (pointAt m t.a))
                    (vsub (pointAt m t.c) (pointAt m t.a))) * (1 / 2))
  else
    none

/-- `PCAModel`: the stored eigenvalue vector `_eigenvalues`, the stored
component rows of the base linear model, the active component count
`n_components`, and the available component count exposed by the base
class.  Modelled from the spec where the base class
`pybug.model.base.MeanInstanceLinearModel` is not under `src/`: the
eigenvalue vector is parallel to the full untrimmed decomposition and has
length `n_available_components`, which bounds every later trim. -/
structure PCAModel (nf : ℕ) where
  eigenvalues_all : List ℚ
  components_all : List (Fin nf → ℚ)
  n_components : ℕ
  n_available_components : ℕ

/-- Basic well-formedness produced by construction: the stored eigenvalue
and component vectors both enumerate all available components, and all of
them are initially active. -/
def PCAModel.wf {nf : ℕ} (M : PCAModel nf) : Prop :=
  M.eigenvalues_all.length = M.n_available_components ∧
    M.components_all.length = M.n_available_components ∧
      M.n_components ≤ M.n_available_components

/-- `PCAModel.components` (via the base class): the active prefix of the
stored component rows. -/
def PCAModel.components {nf : ℕ} (M : PCAModel nf) : List (Fin nf → ℚ) :=
  M.components_all.take M.n_components

/-- `PCAModel.eigenvalues`: `self._eigenvalues[:self.n_components]`. -/
def PCAModel.eigenvalues {nf : ℕ} (M : PCAModel nf) : List ℚ :=
  M.eigenvalues_all.take M.n_components

/-- Arithmetic mean of a list (`ndarray.mean()`). -/
def listMean (l : List ℚ) : ℚ :=
  l.sum / l.length

/-- `PCAModel.noise_variance`: zero when every available component is
active, otherwise the mean of `self._eigenvalues[self.n_components:]`. -/
def PCAModel.noise_variance {nf : ℕ} (M : PCAModel nf) : ℚ :=
  if M.n_components = M.n_available_components then 0
  else listMean (M.eigenvalues_all.drop M.n_components)

/-- `PCAModel.inverse_noise_variance`: `ValueError` when the noise variance
is nil, otherwise its reciprocal. -/
def PCAModel.inverse_noise_variance {nf : ℕ} (M : PCAModel nf) : Option ℚ :=
  if M.noise_variance = 0 then none else some (1 / M.noise_variance)

/-- `PCAModel.trim_components`: the base-class trim (modelled from the spec:
a requested count above `n_available_components` is rejected, the active
count becomes the requested count, component rows beyond it are discarded
permanently) followed by the line of `pca.py` re-slicing `_eigenvalues` to
`self.n_available_components` entries.  A `None` argument re-trims to the
current active count. -/
def PCAModel.trim_components {nf : ℕ} (M : PCAModel nf) (nc : Option ℕ) :
    Option (PCAModel nf) :=
  let m := nc.getD M.n_components
  if M.n_available_components < m then none
  else
    some { M with
      n_components := m
      components_all := M.components_all.take m
      eigenvalues_all := M.eigenvalues_all.take M.n_available_components }

/-- Coordinatewise embedding of a rational component row into `ℝ`. -/
def castVec {nf : ℕ} (c : Fin nf → ℚ) : Fin nf → ℝ :=
  fun j => (c j : ℝ)

/-- `PCAModel.whitened_components`: every active component row divided by
the square root of its eigenvalue plus the noise variance. -/
noncomputable def PCAModel.whitened_components {nf : ℕ} (M : PCAModel nf) :
    List (Fin nf → ℝ) :=
  (M.components.zip M.eigenvalues).map fun p =>
    fun j => (p.1 j : ℝ) / Real.sqrt ((p.2 : ℝ) + (M.noise_variance : ℝ))

/-- Euclidean inner product on feature vectors. -/
def dotR {nf : ℕ} (u v : Fin nf → ℝ) : ℝ :=
  ∑ j, u j * v j

/-- `PCAModel.project_whitened_vector`: weights against the whitened basis
(`dgemm` of the vector with the transposed whitened components) followed by
reconstruction with the same whitened basis. -/
noncomputable def PCAModel.project_whitened_vector {nf : ℕ} (M : PCAModel nf)
    (v : Fin nf → ℝ) : Fin nf → ℝ :=
  fun j => (M.whitened_components.map fun w => dotR v w * w j).sum

/-- C1: trimming a PCA model to an active count `m` strictly below the
available count leaves the stored eigenvalue vector intact, and the noise
variance of the trimmed model is the arithmetic mean of the eigenvalues
strictly beyond index `m`. -/
theorem C1_trim_retains_noise_variance {nf : ℕ} (M M' : PCAModel nf) (m : ℕ)
    (hwf : M.eigenvalues_all.length = M.n_available_components)
    (htrim : M.trim_components (some m) = some M')
    (hm : m < M.n_available_components) :
    M'.noise_variance = listMean (M.eigenvalues_all.drop m) ∧
      M'.eigenvalues_all = M.eigenvalues_all := by
  have hnotlt : ¬ M.n_available_components < m := Nat.not_lt.mpr hm.le
  simp only [PCAModel.trim_components, Option.getD_some, if_neg hnotlt,
    Option.some.injEq] at htrim
  have heq : M'.eigenvalues_all = M.eigenvalues_all := by
    rw [← htrim, ← hwf, List.take_length]
  refine ⟨?_, heq⟩
  have hnc : M'.n_components = m := by rw [← htrim]
  have hav : M'.n_available_components = M.n_available_components := by
    rw [← htrim]
  rw [PCAModel.noise_variance, hnc, hav, if_neg hm.ne, heq]

/-- Closed instance of `C1_trim_retains_noise_variance` on a concrete
three-component model trimmed to one component. -/
theorem C1_trim_retains_noise_variance_witness :
    PCAModel.noise_variance
        ({ eigenvalues_all := [4, 2, 0]
           components_all := [fun _ => 1]
           n_components := 1
           n_available_components := 3 } : PCAModel 1) =
      listMean ([(4 : ℚ), 2, 0].drop 1) ∧
    ({ eigenvalues_all := [4, 2, 0]
       components_all := [fun _ => 1]
       n_components := 1
       n_available_components := 3 } : PCAModel 1).eigenvalues_all =
      [(4 : ℚ), 2, 0] :=
  C1_trim_retains_noise_variance
    { eigenvalues_all := [4, 2, 0]
      components_all := [fun _ => 1, fun _ => 1, fun _ => 1]
      n_components := 3
      n_available_components := 3 }
    { eigenvalues_all := [4, 2, 0]
      components_all := [fun _ => 1]
      n_components := 1
      n_available_components := 3 }
    1 rfl rfl (by decide)

/-- C6: with all available components active the noise variance is exactly
zero, and `inverse_noise_variance` raises exactly when the noise variance is
zero, otherwise returning its reciprocal. -/
theorem C6_noise_variance_inverse {nf : ℕ} (M : PCAModel nf) :
    (M.n_components = M.n_available_components → M.noise_variance = 0) ∧
      (M.inverse_noise_variance = none ↔ M.noise_variance = 0) ∧
        (M.noise_variance ≠ 0 →
          M.inverse_noise_variance = some (1 / M.noise_variance)) := by
  refine ⟨fun h => by simp [PCAModel.noise_variance, h], ?_, fun h => ?_⟩
  · constructor
    · intro h
      by_contra hnz
      simp [PCAModel.inverse_noise_variance, hnz] at h
    · intro h
      simp [PCAModel.inverse_noise_variance, h]
  · simp [PCAModel.inverse_noise_variance, h]

/-- Closed instance of `C6_noise_variance_inverse` on a concrete untrimmed
model. -/
theorem C6_noise_variance_inverse_witness :
    PCAModel.noise_variance
        ({ eigenvalues_all := [4, 2]
           components_all := [fun _ => 1, fun _ => 1]
           n_components := 2
           n_available_components := 2 } : PCAModel 1) = 0 ∧
      PCAModel.inverse_noise_variance
        ({ eigenvalues_all := [4, 2]
           components_all := [fun _ => 1, fun _ => 1]
           n_components := 2
           n_available_components := 2 } : PCAModel 1) = none := by
  refine ⟨(C6_noise_variance_inverse _).1 rfl, ?_⟩
  exact (C6_noise_variance_inverse
    ({ eigenvalues_all := [4, 2]
       components_all := [fun _ => 1, fun _ => 1]
       n_components := 2
       n_available_components := 2 } : PCAModel 1)).2.1.mpr
    ((C6_noise_variance_inverse _).1 rfl)

/-- C9: a mask selecting every point makes `from_mask` return the unmodified
mesh, identical points and triangle list. -/
theorem C9_all_true_mask_identity {α : Type} (m : TriMesh α)
    (mask : List Bool) (hlen : mask.length = m.points.length)
    (hall : mask.all (fun b => b) = true) :
    from_mask m mask = some m := by
  simp [from_mask, from_mask_call, hlen, hall]

/-- Closed instance of `C9_all_true_mask_identity` on a concrete mesh. -/
theorem C9_all_true_mask_identity_witness :
    from_mask ({ points := [10, 20], trilist := [⟨0, 1, 1⟩] } : TriMesh ℕ)
        [true, true] =
      some ({ points := [10, 20], trilist := [⟨0, 1, 1⟩] } : TriMesh ℕ) :=
  C9_all_true_mask_identity _ _ rfl rfl

/-- C10: `from_mask` never mutates its receiver: in the state-passing
translation, for every mask (matching, all-true, or mismatched and hence
rejected) the receiver coming out of the call is the receiver that went in;
the returned mesh is the separately constructed copy. -/
theorem C10_from_mask_receiver_unchanged {α : Type} (m : TriMesh α)
    (mask : List Bool) : (from_mask_call m mask).2 = m := by
  unfold from_mask_call
  split
  · rfl
  · split <;> rfl

/-- C8: every row `i` of the whitened components equals the retained
component row `i` divided by the square root of eigenvalue `i` plus the
noise variance. -/
theorem C8_whitened_component_rows {nf : ℕ} (M : PCAModel nf) (i : ℕ)
    (hc : i < M.components.length) (he : i < M.eigenvalues.length) :
    M.whitened_components.getD i (fun _ => 0) = fun j =>
      (M.components.get ⟨i, hc⟩ j : ℝ) /
        Real.sqrt ((M.eigenvalues.get ⟨i, he⟩ : ℝ) +
          (M.noise_variance : ℝ)) := by
  have hlen : i < M.whitened_components.length := by
    simp only [PCAModel.whitened_components, List.length_map, List.length_zip]
    exact Nat.lt_min.mpr ⟨hc, he⟩
  rw [List.getD_eq_getElem _ _ hlen]
  simp [PCAModel.whitened_components, List.getElem_map, List.getElem_zip,
    List.get_eq_getElem]

/-- Closed instance of `C8_whitened_component_rows` on a concrete model with
one active component and one discarded eigenvalue. -/
theorem C8_whitened_component_rows_witness :
    (PCAModel.whitened_components
        ({ eigenvalues_all := [1, 3]
           components_all := [fun _ => 2, fun _ => 5]
           n_components := 1
           n_available_components := 2 } : PCAModel 1)).getD 0 (fun _ => 0) =
      fun j =>
        (({ eigenvalues_all := [1, 3]
            components_all := [fun _ => 2, fun _ => 5]
            n_components := 1
            n_available_components := 2 } : PCAModel 1).components.get
              ⟨0, by decide⟩ j : ℝ) /
          Real.sqrt
            ((({ eigenvalues_all := [1, 3]
                 components_all := [fun _ => 2, fun _ => 5]
                 n_components := 1
                 n_available_components := 2 } : PCAModel 1).eigenvalues.get
                  ⟨0, by decide⟩ : ℝ) +
              (({ eigenvalues_all := [1, 3]
                  components_all := [fun _ => 2, fun _ => 5]
                  n_components := 1
                  n_available_components := 2 } : PCAModel 1).noise_variance :
                ℝ)) :=
  C8_whitened_component_rows _ 0 (by decide) (by decide)

/-- A planar right triangle with legs 3 and 4, counter-clockwise winding. -/
def rightTri2 : TriMesh (List ℝ) :=
  { points := [[0, 0], [3, 0], [0, 4]], trilist := [⟨0, 1, 2⟩] }

/-- The same planar right triangle with the opposite winding. -/
def rightTri2Flip : TriMesh (List ℝ) :=
  { points := [[0, 0], [3, 0], [0, 4]], trilist := [⟨0, 2, 1⟩] }

/-- The same right triangle embedded in three dimensions. -/
def rightTri3 : TriMesh (List ℝ) :=
  { points := [[0, 0, 0], [3, 0, 0], [0, 4, 0]], trilist := [⟨0, 1, 2⟩] }

/-- A four-dimensional point set, outside the domain of `tri_areas`. -/
def fourDimMesh : TriMesh (List ℝ) :=
  { points := [[0, 0, 0, 0]], trilist := [] }

/-- C7: `tri_areas` yields the signed half cross product in 2D (winding
sign preserved), the non-negative half norm of the 3D cross product in 3D,
and a domain error in any other dimensionality; on a right triangle with
legs 3 and 4 it returns exactly 6 (up to winding sign in 2D). -/
theorem C7_tri_areas_cross_product :
    tri_areas rightTri2 = some [6] ∧
      tri_areas rightTri2Flip = some [-6] ∧
        tri_areas rightTri3 = some [6] ∧
          tri_areas fourDimMesh = none ∧
            ∀ m : TriMesh (List ℝ), n_dims m = 3 →
              ∀ x ∈ (tri_areas m).getD [], 0 ≤ x := by
  have h144 : Real.sqrt 144 = 12 := by
    rw [show (144 : ℝ) = 12 ^ 2 by norm_num,
      Real.sqrt_sq (by norm_num : (0 : ℝ) ≤ 12)]
  refine ⟨?_, ?_, ?_, ?_, ?_⟩
  · norm_num [tri_areas, rightTri2, n_dims, pointAt, vsub, cross2]
  · norm_num [tri_areas, rightTri2Flip, n_dims, pointAt, vsub, cross2]
  · norm_num [tri_areas, rightTri3, n_dims, pointAt, vsub, cross2, cross3,
      vnorm, h144]
  · norm_num [tri_areas, fourDimMesh, n_dims]
  · intro m h3 x hx
    simp only [tri_areas, h3] at hx
    norm_num at hx
    obtain ⟨t, _, rfl⟩ := hx
    exact mul_nonneg (Real.sqrt_nonneg _) (by norm_num)

/-- Closed instance of the universally quantified part of
`C7_tri_areas_cross_product` at the concrete 3D right triangle. -/
theorem C7_tri_areas_cross_product_witness :
    n_dims rightTri3 = 3 ∧
      0 ≤ ((tri_areas rightTri3).getD []).getD 0 0 := by
  refine ⟨rfl, ?_⟩
  refine C7_tri_areas_cross_product.2.2.2.2 rightTri3 rfl _ ?_
  rw [C7_tri_areas_cross_product.2.2.1]
  simp

/-- Inner products pull a common denominator out of the second argument. -/
theorem dotR_div_right {nf : ℕ} (u w : Fin nf → ℝ) (s : ℝ) :
    dotR u (fun k => w k / s) = dotR u w / s := by
  simp [dotR, Finset.sum_div, mul_div_assoc]

/-- Sum shape of the whitened projection: over any paired component or
eigenvalue list, the reconstruction of a unit vector `c` orthogonal to every
other paired component collapses to a per-axis rescale by the reciprocal of
its eigenvalue plus the noise term, counted once per occurrence of `c`. -/
theorem whitened_proj_aux {nf : ℕ} (c : Fin nf → ℚ) (lam nv : ℚ)
    (hpos : 0 ≤ (lam : ℝ) + (nv : ℝ)) (L : List ((Fin nf → ℚ) × ℚ))
    (horth : ∀ p ∈ L,
      dotR (castVec c) (castVec p.1) = if p.1 = c then 1 else 0)
    (huniq : ∀ p ∈ L, p.1 = c → p.2 = lam) (j : Fin nf) :
    (L.map fun p =>
        dotR (castVec c)
            (fun k => (p.1 k : ℝ) / Real.sqrt ((p.2 : ℝ) + (nv : ℝ))) *
          ((p.1 j : ℝ) / Real.sqrt ((p.2 : ℝ) + (nv : ℝ)))).sum =
      ((L.countP fun p => decide (p.1 = c)) : ℝ) *
        (castVec c j / ((lam : ℝ) + (nv : ℝ))) := by
  induction L with
  | nil => simp
  | cons p L ih =>
    have horth' := fun q hq => horth q (List.mem_cons_of_mem _ hq)
    have huniq' := fun q hq => huniq q (List.mem_cons_of_mem _ hq)
    have hdp := horth p (List.mem_cons_self _ _)
    simp only [List.map_cons, List.sum_cons, List.countP_cons]
    rw [ih horth' huniq']
    by_cases hp : p.1 = c
    · have hl : p.2 = lam := huniq p (List.mem_cons_self _ _) hp
      rw [hp] at hdp
      rw [if_pos rfl] at hdp
      have hhead :
          dotR (castVec c)
              (fun k => (p.1 k : ℝ) / Real.sqrt ((p.2 : ℝ) + (nv : ℝ))) *
            ((p.1 j : ℝ) / Real.sqrt ((p.2 : ℝ) + (nv : ℝ))) =
          castVec c j / ((lam : ℝ) + (nv : ℝ)) := by
        rw [hp, hl]
        rw [show (fun k => ((c k : ℚ) : ℝ) / Real.sqrt ((lam : ℝ) + (nv : ℝ)))
            = fun k => castVec c k / Real.sqrt ((lam : ℝ) + (nv : ℝ)) from rfl]
        rw [dotR_div_right, hdp]
        rw [div_mul_div_comm, one_mul, Real.mul_self_sqrt hpos]
        rfl
      rw [hhead]
      simp only [hp, decide_True, if_true]
      push_cast
      ring
    · have hdz :
          dotR (castVec c)
              (fun k => (p.1 k : ℝ) / Real.sqrt ((p.2 : ℝ) + (nv : ℝ))) = 0 := by
        rw [show (fun k => ((p.1 k : ℚ) : ℝ) /
              Real.sqrt ((p.2 : ℝ) + (nv : ℝ)))
            = fun k => castVec p.1 k / Real.sqrt ((p.2 : ℝ) + (nv : ℝ))
            from rfl]
        rw [dotR_div_right, hdp, if_neg hp, zero_div]
      rw [hdz]
      simp [hp]

/-- Standard basis vectors of the three-feature sample space. -/
def stdBasis3 (i : Fin 3) : Fin 3 → ℚ :=
  fun j => if j = i then 1 else 0

/-- A three-component model whose discarded eigenvalues average to the
complement of the first eigenvalue. -/
def pcaFull : PCAModel 3 :=
  { eigenvalues_all := [3 / 4, 1 / 2, 0]
    components_all := [stdBasis3 0, stdBasis3 1, stdBasis3 2]
    n_components := 3
    n_available_components := 3 }

/-- The model `pcaFull` after trimming to a single active component. -/
def pcaTrimmed : PCAModel 3 :=
  { eigenvalues_all := [3 / 4, 1 / 2, 0]
    components_all := [stdBasis3 0]
    n_components := 1
    n_available_components := 3 }

/-- C4 counterexample: the claim says the whitened project or reconstruct
round trip is exact for span vectors only when every available component is
retained.  The model `pcaTrimmed`, produced by `trim_components` and
retaining one of three available components, has eigenvalue plus noise
variance equal to one, so the round trip returns its span vector
(the retained component itself) exactly. -/
theorem C4_whitened_roundtrip_counterexample :
    PCAModel.trim_components pcaFull (some 1) = some pcaTrimmed ∧
      pcaTrimmed.n_components < pcaTrimmed.n_available_components ∧
        pcaTrimmed.components = [stdBasis3 0] ∧
          pcaTrimmed.project_whitened_vector (castVec (stdBasis3 0)) =
            castVec (stdBasis3 0) := by
  have hnv : pcaTrimmed.noise_variance = 1 / 4 := by
    norm_num [PCAModel.noise_variance, pcaTrimmed, listMean]
  have hwh : pcaTrimmed.whitened_components = [castVec (stdBasis3 0)] := by
    rw [PCAModel.whitened_components, hnv]
    simp only [PCAModel.components, PCAModel.eigenvalues, pcaTrimmed]
    norm_num
    funext j
    norm_num [castVec, Real.sqrt_one]
  have hdot :
      dotR (castVec (stdBasis3 0)) (castVec (stdBasis3 0)) = 1 := by
    simp [dotR, castVec, stdBasis3, Fin.sum_univ_three]
  refine ⟨rfl, by decide, rfl, ?_⟩
  funext j
  simp [PCAModel.project_whitened_vector, hwh, hdot]

/-- C4 amended: for a component row `c` of unit norm orthogonal to the other
active rows (occurring exactly once, paired with eigenvalue `lam`), the
whitened project or reconstruct round trip rescales `c` by the reciprocal of
`lam` plus the noise variance, so it is exact precisely when that sum is
one, regardless of whether the model was trimmed. -/
theorem C4_whitened_roundtrip_amended {nf : ℕ} (M : PCAModel nf)
    (c : Fin nf → ℚ) (lam : ℚ)
    (hone : (M.components.zip M.eigenvalues).countP
        (fun p => decide (p.1 = c)) = 1)
    (horth : ∀ p ∈ M.components.zip M.eigenvalues,
      dotR (castVec c) (castVec p.1) = if p.1 = c then 1 else 0)
    (huniq : ∀ p ∈ M.components.zip M.eigenvalues, p.1 = c → p.2 = lam)
    (hpos : 0 ≤ (lam : ℝ) + (M.noise_variance : ℝ)) :
    M.project_whitened_vector (castVec c) =
        (fun j => castVec c j / ((lam : ℝ) + (M.noise_variance : ℝ))) ∧
      (M.project_whitened_vector (castVec c) = castVec c ↔
        (lam : ℝ) + (M.noise_variance : ℝ) = 1) := by
  have hformula : M.project_whitened_vector (castVec c) =
      fun j => castVec c j / ((lam : ℝ) + (M.noise_variance : ℝ)) := by
    funext j
    show ((M.whitened_components).map
        fun w => dotR (castVec c) w * w j).sum = _
    rw [PCAModel.whitened_components, List.map_map]
    have haux := whitened_proj_aux c lam M.noise_variance hpos
      (M.components.zip M.eigenvalues) horth huniq j
    rw [hone] at haux
    simpa [Function.comp] using haux
  refine ⟨hformula, ?_, ?_⟩
  · intro hrt
    have hex : ∃ p ∈ M.components.zip M.eigenvalues, p.1 = c := by
      have hpos' : 0 < (M.components.zip M.eigenvalues).countP
          (fun p => decide (p.1 = c)) := by
        rw [hone]
        norm_num
      obtain ⟨p, hp, hdec⟩ := List.countP_pos_iff.mp hpos'
      exact ⟨p, hp, of_decide_eq_true hdec⟩
    obtain ⟨p, hpmem, hpc⟩ := hex
    have h1 : dotR (castVec c) (castVec c) = 1 := by
      have hd := horth p hpmem
      rw [hpc, if_pos rfl] at hd
      exact hd
    have hcne : ∃ j, castVec c j ≠ 0 := by
      by_contra hall
      push_neg at hall
      rw [dotR] at h1
      simp [hall] at h1
    obtain ⟨j0, hj0⟩ := hcne
    have heq : (fun j => castVec c j /
        ((lam : ℝ) + (M.noise_variance : ℝ))) = castVec c := by
      rw [← hformula]
      exact hrt
    have hj := congrFun heq j0
    by_cases hs0 : (lam : ℝ) + (M.noise_variance : ℝ) = 0
    · rw [hs0, div_zero] at hj
      exact absurd hj.symm hj0
    · rw [div_eq_iff hs0] at hj
      have hj' : castVec c j0 * 1 = castVec c j0 *
          ((lam : ℝ) + (M.noise_variance : ℝ)) := by
        rw [mul_one]
        exact hj
      exact (mul_left_cancel₀ hj0 hj').symm
  · intro hs1
    rw [hformula, hs1]
    funext j
    simp [castVec]

/-- A one-feature model, untrimmed, with unit eigenvalue. -/
def pcaUnit : PCAModel 1 :=
  { eigenvalues_all := [1]
    components_all := [fun _ => 1]
    n_components := 1
    n_available_components := 1 }

/-- Closed instance of `C4_whitened_roundtrip_amended` on `pcaUnit`. -/
theorem C4_whitened_roundtrip_amended_witness :
    pcaUnit.project_whitened_vector (castVec fun _ => 1) =
        (fun j => castVec (fun _ => (1 : ℚ)) j /
          (((1 : ℚ) : ℝ) + (pcaUnit.noise_variance : ℝ))) ∧
      (pcaUnit.project_whitened_vector (castVec fun _ => 1) =
          castVec (fun _ => 1) ↔
        ((1 : ℚ) : ℝ) + (pcaUnit.noise_variance : ℝ) = 1) :=
  C4_whitened_roundtrip_amended pcaUnit (fun _ => 1) 1
    (by decide)
    (by
      intro p hp
      simp only [PCAModel.components, PCAModel.eigenvalues, pcaUnit,
        List.take, List.zip, List.zipWith, List.mem_singleton] at hp
      subst hp
      simp [dotR, castVec, Fin.sum_univ_one])
    (by
      intro p hp _
      simp only [PCAModel.components, PCAModel.eigenvalues, pcaUnit,
        List.take, List.zip, List.zipWith, List.mem_singleton] at hp
      subst hp
      rfl)
    (by simp [PCAModel.noise_variance, pcaUnit])

instance : Inhabited Tri :=
  ⟨⟨0, 0, 0⟩⟩

/-- The three sorted endpoint pairs of one triangle row. -/
def tri_sorted_edges (t : Tri) : List (ℕ × ℕ) :=
  [sortPair (t.a, t.b), sortPair (t.a, t.c), sortPair (t.b, t.c)]

/-- Whether a sorted endpoint pair is one of a triangle row's edges. -/
def tri_hasEdge (t : Tri) (e : ℕ × ℕ) : Bool :=
  (tri_sorted_edges t).contains e

/-- Two triangle rows share an edge when some sorted endpoint pair occurs
in both. -/
def sharesEdge (t1 t2 : Tri) : Bool :=
  (tri_sorted_edges t1).any fun e => tri_hasEdge t2 e

/-- Some pair of distinct triangle-list rows shares an edge. -/
def two_tris_share_edge (tl : List Tri) : Bool :=
  (List.range tl.length).any fun i =>
    (List.range tl.length).any fun j =>
      decide (i < j) && sharesEdge (tl.getD i default) (tl.getD j default)

/-- A triangle row with three distinct vertices. -/
def tri_distinct (t : Tri) : Prop :=
  t.a ≠ t.b ∧ t.a ≠ t.c ∧ t.b ≠ t.c

/-- Two sorted pairs agree exactly when the underlying pairs agree up to
swapping. -/
theorem sortPair_eq_iff (a b c d : ℕ) :
    sortPair (a, b) = sortPair (c, d) ↔ (a = c ∧ b = d) ∨ (a = d ∧ b = c) := by
  unfold sortPair
  split_ifs <;> simp [Prod.ext_iff] <;> omega

/-- Sorting an index pair is insensitive to the pair's orientation. -/
theorem sortPair_swap (a b : ℕ) : sortPair (b, a) = sortPair (a, b) := by
  unfold sortPair
  split_ifs <;> simp [Prod.ext_iff] <;> omega

/-- Occurrence count in a mapped list as a predicate count. -/
theorem count_map_eq_countP {α β : Type} [BEq β] (f : α → β)
    (l : List α) (e : β) :
    (l.map f).count e = l.countP fun t => f t == e := by
  induction l with
  | nil => rfl
  | cons a l ih => simp [List.count_cons, List.countP_cons, ih]

/-- For a triangle with three distinct vertices, the three sorted edge pairs
are pairwise different, so matching a fixed pair against them counts at most
one hit: membership in the sorted edge list. -/
theorem tri_pointwise_count (t : Tri) (hd : tri_distinct t) (e : ℕ × ℕ) :
    ((if sortPair (t.a, t.b) = e then 1 else 0) +
      (if sortPair (t.a, t.c) = e then 1 else 0) +
        (if sortPair (t.b, t.c) = e then 1 else 0) : ℕ) =
      if e ∈ tri_sorted_edges t then 1 else 0 := by
  obtain ⟨h1, h2, h3⟩ := hd
  have d01 : sortPair (t.a, t.b) ≠ sortPair (t.a, t.c) := by
    simp only [ne_eq, sortPair_eq_iff]
    omega
  have d02 : sortPair (t.a, t.b) ≠ sortPair (t.b, t.c) := by
    simp only [ne_eq, sortPair_eq_iff]
    omega
  have d12 : sortPair (t.a, t.c) ≠ sortPair (t.b, t.c) := by
    simp only [ne_eq, sortPair_eq_iff]
    omega
  simp only [tri_sorted_edges, List.mem_cons, List.not_mem_nil, or_false]
  by_cases e0 : sortPair (t.a, t.b) = e
  · have n1 : ¬ sortPair (t.a, t.c) = e := fun h => d01 (e0.trans h.symm)
    have n2 : ¬ sortPair (t.b, t.c) = e := fun h => d02 (e0.trans h.symm)
    rw [if_pos e0, if_neg n1, if_neg n2, if_pos (Or.inl e0.symm)]
  · have s0 : ¬ e = sortPair (t.a, t.b) := fun h => e0 h.symm
    by_cases e1 : sortPair (t.a, t.c) = e
    · have n2 : ¬ sortPair (t.b, t.c) = e := fun h => d12 (e1.trans h.symm)
      rw [if_neg e0, if_pos e1, if_neg n2,
        if_pos (Or.inr (Or.inl e1.symm))]
    · have s1 : ¬ e = sortPair (t.a, t.c) := fun h => e1 h.symm
      by_cases e2 : sortPair (t.b, t.c) = e
      · rw [if_neg e0, if_neg e1, if_pos e2,
          if_pos (Or.inr (Or.inr e2.symm))]
      · have s2 : ¬ e = sortPair (t.b, t.c) := fun h => e2 h.symm
        have hnm : ¬ (e = sortPair (t.a, t.b) ∨ e = sortPair (t.a, t.c) ∨
            e = sortPair (t.b, t.c)) :=
          fun h => h.elim s0 fun h' => h'.elim s1 s2
        rw [if_neg e0, if_neg e1, if_neg e2, if_neg hnm]

/-- Summing three per-row indicator counts into one. -/
theorem countP_three_sum {P0 P1 P2 Q : Tri → Bool} (tl : List Tri)
    (hpt : ∀ t ∈ tl,
      ((if P0 t then 1 else 0) + (if P1 t then 1 else 0) +
        (if P2 t then 1 else 0) : ℕ) = if Q t then 1 else 0) :
    tl.countP P0 + tl.countP P1 + tl.countP P2 = tl.countP Q := by
  induction tl with
  | nil => simp
  | cons t tl ih =>
    have hh := hpt t (List.mem_cons_self _ _)
    have ih' := ih fun q hq => hpt q (List.mem_cons_of_mem _ hq)
    simp only [List.countP_cons]
    omega

/-- Membership reading of `tri_hasEdge`. -/
theorem tri_hasEdge_iff {t : Tri} {e : ℕ × ℕ} :
    tri_hasEdge t e = true ↔ e ∈ tri_sorted_edges t :=
  List.elem_iff

/-- Indicator reading of `tri_hasEdge`. -/
theorem tri_hasEdge_ite (t : Tri) (e : ℕ × ℕ) :
    (if tri_hasEdge t e then (1 : ℕ) else 0) =
      if e ∈ tri_sorted_edges t then 1 else 0 := by
  by_cases hm : e ∈ tri_sorted_edges t
  · rw [if_pos (tri_hasEdge_iff.mpr hm), if_pos hm]
  · rw [if_neg fun h => hm (tri_hasEdge_iff.mp h), if_neg hm]

/-- For a triangle list whose rows have three distinct vertices, the
multiplicity of a sorted pair among the `3 * n_tris` sorted edges of
`edge_indices` is the number of rows owning that pair as an edge. -/
theorem count_sorted_edge_indices (tl : List Tri)
    (hd : ∀ t ∈ tl, tri_distinct t) (e : ℕ × ℕ) :
    ((edge_indices tl).map sortPair).count e =
      tl.countP fun t => tri_hasEdge t e := by
  simp only [edge_indices, List.map_append, List.count_append, List.map_map]
  rw [count_map_eq_countP, count_map_eq_countP, count_map_eq_countP]
  refine countP_three_sum tl ?_
  intro t ht
  have hpw := tri_pointwise_count t (hd t ht) e
  simp only [Function.comp_apply, beq_iff_eq]
  rw [tri_hasEdge_ite, sortPair_swap t.a t.c]
  omega

/-- The same multiplicity statement for the sorted edge stack of
`boundary_tri_index`. -/
theorem count_boundary_edge_pairs (tl : List Tri)
    (hd : ∀ t ∈ tl, tri_distinct t) (e : ℕ × ℕ) :
    (boundaryEdgePairs tl).count e =
      tl.countP fun t => tri_hasEdge t e := by
  simp only [boundaryEdgePairs, List.count_append]
  rw [count_map_eq_countP, count_map_eq_countP, count_map_eq_countP]
  refine countP_three_sum tl ?_
  intro t ht
  have hpw := tri_pointwise_count t (hd t ht) e
  simp only [beq_iff_eq]
  rw [tri_hasEdge_ite]
  omega

/-- A predicate holding at two distinct positions pushes the count to two. -/
theorem two_le_countP_of_positions {α : Type} (P : α → Bool) (l : List α)
    (d : α) (i j : ℕ) (hij : i < j) (hjl : j < l.length)
    (hpi : P (l.getD i d) = true) (hpj : P (l.getD j d) = true) :
    2 ≤ l.countP P := by
  induction l generalizing i j with
  | nil => simp at hjl
  | cons a l ih =>
    rw [List.countP_cons]
    rcases i with _ | i <;> rcases j with _ | j
    · omega
    · have hpa : P a = true := by simpa [List.getD_cons_zero] using hpi
      have hj' : j < l.length := by
        rw [List.length_cons] at hjl
        omega
      have hmem : l.getD j d ∈ l := by
        rw [List.getD_eq_getElem l d hj']
        exact List.getElem_mem hj'
      have h1 : 0 < l.countP P := List.countP_pos_iff.mpr
        ⟨_, hmem, by simpa [List.getD_cons_succ] using hpj⟩
      simp only [hpa, if_true]
      omega
    · omega
    · have hj' : j < l.length := by
        rw [List.length_cons] at hjl
        omega
      have h2 := ih i j (by omega) hj'
        (by simpa [List.getD_cons_succ] using hpi)
        (by simpa [List.getD_cons_succ] using hpj)
      omega

/-- A count of two yields two distinct positions where the predicate
holds. -/
theorem positions_of_two_le_countP {α : Type} (P : α → Bool) (l : List α)
    (d : α) (h : 2 ≤ l.countP P) :
    ∃ i j, i < j ∧ j < l.length ∧
      P (l.getD i d) = true ∧ P (l.getD j d) = true := by
  induction l with
  | nil => simp at h
  | cons a l ih =>
    rw [List.countP_cons] at h
    by_cases hpa : P a = true
    · have h1 : 0 < l.countP P := by
        simp only [hpa, if_true] at h
        omega
      obtain ⟨x, hx, hpx⟩ := List.countP_pos_iff.mp h1
      obtain ⟨k, hk, hkx⟩ := List.mem_iff_getElem.mp hx
      refine ⟨0, k + 1, by omega, ?_, ?_, ?_⟩
      · rw [List.length_cons]
        omega
      · simpa [List.getD_cons_zero] using hpa
      · rw [List.getD_cons_succ, List.getD_eq_getElem l d hk, hkx]
        exact hpx
    · have h2 : 2 ≤ l.countP P := by
        rw [Bool.not_eq_true] at hpa
        simp only [hpa, Bool.false_eq_true, if_false] at h
        omega
      obtain ⟨i, j, hij, hjl, hpi, hpj⟩ := ih h2
      refine ⟨i + 1, j + 1, by omega, ?_, ?_, ?_⟩
      · rw [List.length_cons]
        omega
      · simpa [List.getD_cons_succ] using hpi
      · simpa [List.getD_cons_succ] using hpj

/-- Existential reading of `sharesEdge`. -/
theorem sharesEdge_iff {t1 t2 : Tri} :
    sharesEdge t1 t2 = true ↔
      ∃ e ∈ tri_sorted_edges t1, e ∈ tri_sorted_edges t2 := by
  simp [sharesEdge, List.any_eq_true, tri_hasEdge_iff]

/-- Existential reading of `two_tris_share_edge`. -/
theorem two_tris_share_edge_iff (tl : List Tri) :
    two_tris_share_edge tl = true ↔
      ∃ i j, i < j ∧ j < tl.length ∧
        sharesEdge (tl.getD i default) (tl.getD j default) = true := by
  simp only [two_tris_share_edge, List.any_eq_true, List.mem_range,
    Bool.and_eq_true, decide_eq_true_eq]
  constructor
  · rintro ⟨i, _, j, hj, hij, hs⟩
    exact ⟨i, j, hij, hj, hs⟩
  · rintro ⟨i, j, hij, hj, hs⟩
    exact ⟨i, by omega, j, hj, hij, hs⟩

/-- Duplicate-freedom as a multiplicity bound, stated over an arbitrary
lawful boolean equality so it applies at any instance in scope. -/
theorem nodup_iff_count_le_one_beq {α : Type} [BEq α] [LawfulBEq α]
    {l : List α} : l.Nodup ↔ ∀ a, l.count a ≤ 1 := by
  induction l with
  | nil => simp
  | cons a l ih =>
    rw [List.nodup_cons, ih]
    constructor
    · rintro ⟨ha, hcnt⟩ b
      rw [List.count_cons]
      by_cases hba : b = a
      · subst hba
        have hz : l.count b = 0 := List.count_eq_zero.mpr ha
        simp [hz]
      · have hf : (a == b) = false :=
          beq_eq_false_iff_ne.mpr fun h => hba h.symm
        simp only [hf, Bool.false_eq_true, if_false]
        have := hcnt b
        omega
    · intro h
      refine ⟨?_, fun b => ?_⟩
      · intro hmem
        have ha := h a
        rw [List.count_cons] at ha
        have h1 : 0 < l.count a := List.count_pos_iff.mpr hmem
        simp only [BEq.refl, if_true] at ha
        omega
      · have hb := h b
        rw [List.count_cons] at hb
        omega

/-- C5 counterexample: the claim asserts, for every triangle list, that
`unique_edge_indicies` has length `3 * n_tris` exactly when no two triangles
share an edge.  The one-row list `[(0, 1, 0)]` repeats the sorted pair
(0, 1) inside the single triangle: no two triangles exist to share an edge,
yet only two unique pairs remain. -/
theorem C5_unique_edges_counterexample :
    ¬ ((unique_edge_indicies [(⟨0, 1, 0⟩ : Tri)]).length =
          3 * [(⟨0, 1, 0⟩ : Tri)].length ↔
        two_tris_share_edge [(⟨0, 1, 0⟩ : Tri)] = false) := by
  decide

/-- C5 amended: `edge_indices` always has length `3 * n_tris` and
`unique_edge_indicies` at most that, with equality exactly when the
`3 * n_tris` sorted pairs are pairwise distinct; for triangle lists whose
rows have three distinct vertices this coincides with no two triangle rows
sharing an edge. -/
theorem C5_edge_counts_amended (tl : List Tri) :
    (edge_indices tl).length = 3 * tl.length ∧
      (unique_edge_indicies tl).length ≤ 3 * tl.length ∧
        ((unique_edge_indicies tl).length = 3 * tl.length ↔
          ((edge_indices tl).map sortPair).Nodup) ∧
          ((∀ t ∈ tl, tri_distinct t) →
            (((edge_indices tl).map sortPair).Nodup ↔
              two_tris_share_edge tl = false)) := by
  have hlen0 : (edge_indices tl).length = 3 * tl.length := by
    simp [edge_indices]
    ring
  have hlenE : ((edge_indices tl).map sortPair).length = 3 * tl.length := by
    rw [List.length_map, hlen0]
  refine ⟨hlen0, ?_, ⟨?_, ?_⟩, ?_⟩
  · calc (unique_edge_indicies tl).length
        ≤ ((edge_indices tl).map sortPair).length :=
          (List.dedup_sublist _).length_le
      _ = 3 * tl.length := hlenE
  · intro h
    have hequal : ((edge_indices tl).map sortPair).dedup =
        (edge_indices tl).map sortPair :=
      (List.dedup_sublist _).eq_of_length (by rw [← hlenE] at h; exact h)
    rw [← hequal]
    exact List.nodup_dedup _
  · intro h
    rw [unique_edge_indicies, List.dedup_eq_self.mpr h, hlenE]
  · intro hd
    constructor
    · intro hnd
      by_contra htw
      rw [Bool.not_eq_false] at htw
      obtain ⟨i, j, hij, hjl, hs⟩ := (two_tris_share_edge_iff tl).mp htw
      obtain ⟨e, he1, he2⟩ := sharesEdge_iff.mp hs
      have hcnt := nodup_iff_count_le_one_beq.mp hnd e
      have heq := count_sorted_edge_indices tl hd e
      have h2 : 2 ≤ tl.countP fun t => tri_hasEdge t e :=
        two_le_countP_of_positions (fun t => tri_hasEdge t e) tl default i j
          hij hjl (tri_hasEdge_iff.mpr he1) (tri_hasEdge_iff.mpr he2)
      omega
    · intro htw
      rw [nodup_iff_count_le_one_beq]
      intro e
      have heq := count_sorted_edge_indices tl hd e
      by_contra hgt
      push_neg at hgt
      obtain ⟨i, j, hij, hjl, hpi, hpj⟩ :=
        positions_of_two_le_countP (fun t => tri_hasEdge t e) tl default
          (by omega)
      have hs : sharesEdge (tl.getD i default) (tl.getD j default) = true :=
        sharesEdge_iff.mpr
          ⟨e, tri_hasEdge_iff.mp hpi, tri_hasEdge_iff.mp hpj⟩
      have htrue : two_tris_share_edge tl = true :=
        (two_tris_share_edge_iff tl).mpr ⟨i, j, hij, hjl, hs⟩
      rw [htw] at htrue
      exact Bool.false_ne_true htrue

/-- Closed instance of `C5_edge_counts_amended` on a proper single
triangle, where all three lengths agree and no sharing occurs. -/
theorem C5_edge_counts_amended_witness :
    (unique_edge_indicies [(⟨0, 1, 2⟩ : Tri)]).length =
        3 * [(⟨0, 1, 2⟩ : Tri)].length ∧
      (((edge_indices [(⟨0, 1, 2⟩ : Tri)]).map sortPair).Nodup ↔
        two_tris_share_edge [(⟨0, 1, 2⟩ : Tri)] = false) := by
  refine ⟨by decide, (C5_edge_counts_amended _).2.2.2 ?_⟩
  intro t ht
  rw [List.mem_singleton] at ht
  subst ht
  exact ⟨by decide, by decide, by decide⟩

/-- The number of triangle rows owning a given sorted endpoint pair. -/
def triangles_containing (tl : List Tri) (e : ℕ × ℕ) : ℕ :=
  tl.countP fun t => tri_hasEdge t e

/-- The sorted edge stack has one row per triangle and block. -/
theorem boundaryEdgePairs_length (tl : List Tri) :
    (boundaryEdgePairs tl).length = 3 * tl.length := by
  simp [boundaryEdgePairs]
  ring

/-- Entry `p` of the sorted edge stack is edge `p / n_tris` of triangle
`p % n_tris`. -/
theorem bep_getD (tl : List Tri) (p : ℕ) (hp : p < 3 * tl.length) :
    (boundaryEdgePairs tl).getD p (0, 0) =
      (tri_sorted_edges (tl.getD (p % tl.length) default)).getD
        (p / tl.length) (0, 0) := by
  have hn : 0 < tl.length := by omega
  have hr : p % tl.length < tl.length := Nat.mod_lt p hn
  have hdm := Nat.div_add_mod p tl.length
  have hk3 : p / tl.length < 3 := by
    rw [Nat.div_lt_iff_lt_mul hn]
    omega
  have hmap : ∀ (f : Tri → ℕ × ℕ) (i : ℕ), i < tl.length →
      (tl.map f).getD i (0, 0) = f (tl.getD i default) := by
    intro f i hi
    rw [List.getD_eq_getElem (tl.map f) (0, 0) (by simpa using hi),
      List.getElem_map, List.getD_eq_getElem tl default hi]
  have hk : p / tl.length = 0 ∨ p / tl.length = 1 ∨ p / tl.length = 2 := by
    rcases hq : p / tl.length with _ | _ | _ | q
    · exact Or.inl rfl
    · exact Or.inr (Or.inl rfl)
    · exact Or.inr (Or.inr rfl)
    · rw [hq] at hk3
      omega
  rcases hk with hk | hk | hk <;> rw [hk] at hdm ⊢ <;> clear hk hk3
  · have hpn : p % tl.length = p := by omega
    rw [hpn]
    unfold boundaryEdgePairs
    rw [List.getD_append _ _ _ _
        (show p < ((tl.map fun t => sortPair (t.a, t.b)) ++
          (tl.map fun t => sortPair (t.a, t.c))).length by simp; omega),
      List.getD_append _ _ _ _
        (show p < (tl.map fun t => sortPair (t.a, t.b)).length by
          simp; omega)]
    rw [hmap _ p (by omega)]
    simp [tri_sorted_edges]
  · unfold boundaryEdgePairs
    rw [List.getD_append _ _ _ _
        (show p < ((tl.map fun t => sortPair (t.a, t.b)) ++
          (tl.map fun t => sortPair (t.a, t.c))).length by simp; omega),
      List.getD_append_right _ _ _ _
        (show (tl.map fun t => sortPair (t.a, t.b)).length ≤ p by
          simp; omega)]
    have hsub : p - (tl.map fun t => sortPair (t.a, t.b)).length =
        p % tl.length := by
      simp
      omega
    rw [hsub, hmap _ _ hr]
    simp [tri_sorted_edges]
  · unfold boundaryEdgePairs
    rw [List.getD_append_right _ _ _ _
        (show ((tl.map fun t => sortPair (t.a, t.b)) ++
          (tl.map fun t => sortPair (t.a, t.c))).length ≤ p by
          simp; omega)]
    have hsub : p - ((tl.map fun t => sortPair (t.a, t.b)) ++
        (tl.map fun t => sortPair (t.a, t.c))).length = p % tl.length := by
      simp
      omega
    rw [hsub, hmap _ _ hr]
    simp [tri_sorted_edges]

/-- Membership characterisation of `boundary_tri_index` for triangle lists
whose rows have three distinct vertices: a triangle index is selected
exactly when one of its sorted edges is owned by exactly one triangle. -/
theorem boundary_tri_index_mem (tl : List Tri)
    (hd : ∀ tr ∈ tl, tri_distinct tr) (t : ℕ) :
    t ∈ boundary_tri_index tl ↔
      t < tl.length ∧ ∃ e ∈ tri_sorted_edges (tl.getD t default),
        triangles_containing tl e = 1 := by
  have hElen := boundaryEdgePairs_length tl
  constructor
  · intro ht
    simp only [boundary_tri_index, List.mem_dedup, List.mem_map,
      List.mem_filter, List.mem_range] at ht
    obtain ⟨p, ⟨hp, hq⟩, hpt⟩ := ht
    rw [hElen] at hp
    have hn : 0 < tl.length := by omega
    have htlt : t < tl.length := by
      rw [← hpt]
      exact Nat.mod_lt p hn
    refine ⟨htlt, (boundaryEdgePairs tl).getD p (0, 0), ?_, ?_⟩
    · rw [bep_getD tl p hp, hpt]
      have h3 : p / tl.length < 3 := by
        rw [Nat.div_lt_iff_lt_mul hn]
        omega
      rw [List.getD_eq_getElem _ _
        (show p / tl.length < (tri_sorted_edges (tl.getD t default)).length
          by simpa [tri_sorted_edges] using h3)]
      exact List.getElem_mem _
    · have hq' : (boundaryEdgePairs tl).count
          ((boundaryEdgePairs tl).getD p (0, 0)) = 1 := by
        simpa using hq
      rw [triangles_containing, ← count_boundary_edge_pairs tl hd]
      exact hq'
  · rintro ⟨htlt, e, he, hcount⟩
    obtain ⟨k, hk, hke⟩ := List.mem_iff_getElem.mp he
    have hk3 : k < 3 := by simpa [tri_sorted_edges] using hk
    have hn : 0 < tl.length := by omega
    simp only [boundary_tri_index, List.mem_dedup, List.mem_map,
      List.mem_filter, List.mem_range]
    have hplt : k * tl.length + t < 3 * tl.length := by
      rcases (by omega : k = 0 ∨ k = 1 ∨ k = 2) with h | h | h <;>
        subst h <;> omega
    have hmod : (k * tl.length + t) % tl.length = t := by
      rw [Nat.mul_comm k tl.length, Nat.mul_add_mod, Nat.mod_eq_of_lt htlt]
    have hdiv : (k * tl.length + t) / tl.length = k := by
      rw [Nat.mul_comm k tl.length, Nat.mul_add_div hn,
        Nat.div_eq_of_lt htlt, Nat.add_zero]
    have hgd : (boundaryEdgePairs tl).getD (k * tl.length + t) (0, 0) = e := by
      rw [bep_getD tl _ hplt, hmod, hdiv,
        List.getD_eq_getElem _ _
          (show k < (tri_sorted_edges (tl.getD t default)).length by
            simpa [tri_sorted_edges] using hk3)]
      exact hke
    refine ⟨k * tl.length + t, ⟨?_, ?_⟩, hmod⟩
    · rw [hElen]
      exact hplt
    · rw [hgd]
      have hc : (boundaryEdgePairs tl).count e = 1 := by
        rw [count_boundary_edge_pairs tl hd]
        exact hcount
      simp [hc]

/-- C3 counterexample: the claim says a triangle is selected exactly when
it owns an edge occurring in exactly one triangle of the mesh.  On the
degenerate list [(0, 1, 0), (0, 0, 2)] triangle 0 owns the edge (0, 1),
which occurs in exactly one triangle, yet the stacked pair (0, 1) has
multiplicity two (twice inside triangle 0), so `boundary_tri_index`
selects nothing. -/
theorem C3_boundary_counterexample :
    ¬ ((0 ∈ boundary_tri_index [(⟨0, 1, 0⟩ : Tri), ⟨0, 0, 2⟩]) ↔
        0 < [(⟨0, 1, 0⟩ : Tri), ⟨0, 0, 2⟩].length ∧
          ∃ e ∈ tri_sorted_edges
              ([(⟨0, 1, 0⟩ : Tri), ⟨0, 0, 2⟩].getD 0 default),
            triangles_containing [(⟨0, 1, 0⟩ : Tri), ⟨0, 0, 2⟩] e = 1) := by
  decide

/-- C3 amended: for triangle lists whose rows have three distinct vertices,
`boundary_tri_index` selects exactly the triangles owning at least one edge
occurring in exactly one triangle (equivalently a sorted pair of
multiplicity one); a single triangle is selected, and the four faces of a
tetrahedron yield an empty selection. -/
theorem C3_boundary_tri_amended :
    (∀ tl : List Tri, (∀ tr ∈ tl, tri_distinct tr) → ∀ t : ℕ,
      (t ∈ boundary_tri_index tl ↔
        t < tl.length ∧ ∃ e ∈ tri_sorted_edges (tl.getD t default),
          triangles_containing tl e = 1)) ∧
      boundary_tri_index [(⟨0, 1, 2⟩ : Tri)] = [0] ∧
        boundary_tri_index
            [(⟨0, 1, 2⟩ : Tri), ⟨0, 1, 3⟩, ⟨0, 2, 3⟩, ⟨1, 2, 3⟩] = [] :=
  ⟨fun tl hd t => boundary_tri_index_mem tl hd t, by decide, by decide⟩

/-- Closed instance of `C3_boundary_tri_amended` at the single proper
triangle. -/
theorem C3_boundary_tri_amended_witness :
    (0 ∈ boundary_tri_index [(⟨0, 1, 2⟩ : Tri)]) ↔
      0 < [(⟨0, 1, 2⟩ : Tri)].length ∧
        ∃ e ∈ tri_sorted_edges ([(⟨0, 1, 2⟩ : Tri)].getD 0 default),
          triangles_containing [(⟨0, 1, 2⟩ : Tri)] e = 1 :=
  C3_boundary_tri_amended.1 [⟨0, 1, 2⟩]
    (by
      intro tr htr
      rw [List.mem_singleton] at htr
      subst htr
      exact ⟨by decide, by decide, by decide⟩) 0

/-- Pointwise congruence for predicate counts. -/
theorem countP_congr_mem {α : Type} {p q : α → Bool} {l : List α}
    (h : ∀ a ∈ l, p a = q a) : l.countP p = l.countP q := by
  induction l with
  | nil => rfl
  | cons a l ih =>
    simp only [List.countP_cons, h a (List.mem_cons_self _ _),
      ih fun b hb => h b (List.mem_cons_of_mem _ hb)]

/-- Existential reading of `in_tris`. -/
theorem in_tris_iff (v : ℕ) (tl : List Tri) :
    in_tris v tl = true ↔ ∃ t ∈ tl, v = t.a ∨ v = t.b ∨ v = t.c := by
  simp [in_tris, vertex_in_tri, List.any_eq_true, or_assoc]

/-- Every vertex of a triangle surviving the mask is mask-selected. -/
theorem maskGet_of_mem_masked (mask : List Bool) (tl : List Tri) (t : Tri)
    (ht : t ∈ mask_adjacency_array mask tl) :
    maskGet mask t.a = true ∧ maskGet mask t.b = true ∧
      maskGet mask t.c = true := by
  simp only [mask_adjacency_array, List.mem_filter, keep_tri,
    Bool.and_eq_true] at ht
  exact ⟨ht.2.1.1, ht.2.1.2, ht.2.2⟩

/-- A point occurring in a surviving triangle is mask-selected, so the
conjunction in `isolated_mask` collapses to the occurrence test. -/
theorem maskGet_and_in_tris (mask : List Bool) (tl : List Tri) (v : ℕ) :
    (maskGet mask v && in_tris v (mask_adjacency_array mask tl)) =
      in_tris v (mask_adjacency_array mask tl) := by
  cases hit : in_tris v (mask_adjacency_array mask tl) with
  | false => simp
  | true =>
    obtain ⟨t, htA, hvt⟩ := (in_tris_iff _ _).mp hit
    have hm := maskGet_of_mem_masked mask tl t htA
    rcases hvt with h | h | h <;> rw [h] <;>
      simp [hm.1, hm.2.1, hm.2.2]

/-- Entry `v` of `_isolated_mask`: the requested mask value conjoined with
occurrence in the surviving adjacency. -/
theorem isolated_mask_get (mask : List Bool) (tl : List Tri) (v : ℕ)
    (hv : v < mask.length) :
    maskGet (isolated_mask mask tl) v =
      (maskGet mask v && in_tris v (mask_adjacency_array mask tl)) := by
  rw [maskGet, isolated_mask,
    List.getD_eq_getElem _ _ (by simpa using hv)]
  simp only [List.getElem_map, List.getElem_range]

/-- Masking the triangle list by the isolated mask keeps exactly the
triangles kept by the requested mask: a surviving triangle's vertices all
occur in the surviving adjacency, so clearing isolated points changes no
triangle's fate. -/
theorem masked_adj_idem (mask : List Bool) (tl : List Tri)
    (hvalid : ∀ t ∈ tl, t.a < mask.length ∧ t.b < mask.length ∧
      t.c < mask.length) :
    mask_adjacency_array (isolated_mask mask tl) tl =
      mask_adjacency_array mask tl := by
  unfold mask_adjacency_array
  apply List.filter_congr
  intro t ht
  obtain ⟨ha, hb, hc⟩ := hvalid t ht
  show keep_tri (isolated_mask mask tl) t = keep_tri mask t
  unfold keep_tri
  rw [isolated_mask_get mask tl t.a ha, isolated_mask_get mask tl t.b hb,
    isolated_mask_get mask tl t.c hc]
  cases hga : maskGet mask t.a with
  | false => simp [hga]
  | true =>
    cases hgb : maskGet mask t.b with
    | false => simp [hgb]
    | true =>
      cases hgc : maskGet mask t.c with
      | false => simp [hgc]
      | true =>
        have htA : t ∈ mask_adjacency_array mask tl := by
          simp [mask_adjacency_array, List.mem_filter, keep_tri, hga, hgb,
            hgc, ht]
        have hia := (in_tris_iff t.a _).mpr ⟨t, htA, Or.inl rfl⟩
        have hib := (in_tris_iff t.b _).mpr ⟨t, htA, Or.inr (Or.inl rfl)⟩
        have hic := (in_tris_iff t.c _).mpr ⟨t, htA, Or.inr (Or.inr rfl)⟩
        simp [hga, hgb, hgc, hia, hib, hic]

/-- Length of a boolean selection: the number of `True` mask entries. -/
theorem boolSelect_length {α : Type} (xs : List α) (bs : List Bool)
    (h : xs.length = bs.length) :
    (boolSelect xs bs).length = bs.countP fun b => b := by
  induction xs generalizing bs with
  | nil =>
    cases bs with
    | nil => rfl
    | cons b bs => simp at h
  | cons x xs ih =>
    cases bs with
    | nil => simp at h
    | cons b bs =>
      have h' : xs.length = bs.length := by simpa using h
      cases b <;>
        simp [boolSelect, List.countP_cons, ← ih bs h', boolSelect]

/-- C2: whenever a valid mask deselects at least one point, every point of
the mesh returned by `from_mask` appears in at least one triangle of its
triangle list: dropped triangles, renumbering and the exclusion of isolated
retained points leave no orphan in the output point set. -/
theorem C2_from_mask_no_orphans {α : Type} (m : TriMesh α)
    (mask : List Bool) (hlen : mask.length = m.points.length)
    (hvalid : ∀ t ∈ m.trilist, t.a < m.points.length ∧
      t.b < m.points.length ∧ t.c < m.points.length)
    (hremove : ∃ i, i < mask.length ∧ mask.getD i false = false)
    (m' : TriMesh α) (hres : from_mask m mask = some m') :
    ∀ j < m'.points.length, ∃ t ∈ m'.trilist,
      j = t.a ∨ j = t.b ∨ j = t.c := by
  obtain ⟨i, hi, hifalse⟩ := hremove
  have hnall : mask.all (fun b => b) = false := by
    by_contra hcon
    rw [Bool.not_eq_false] at hcon
    have hmem : mask.getD i false ∈ mask := by
      rw [List.getD_eq_getElem mask false hi]
      exact List.getElem_mem hi
    have htrue := List.all_eq_true.mp hcon _ hmem
    rw [hifalse] at htrue
    exact Bool.false_ne_true htrue
  have hform : from_mask m mask = some
      ⟨boolSelect m.points (isolated_mask mask m.trilist),
        reindex_adjacency_array
          (mask_adjacency_array (isolated_mask mask m.trilist)
            m.trilist)⟩ := by
    rw [from_mask, from_mask_call, if_neg fun hcon => hcon hlen]
    simp only [hnall, Bool.false_eq_true, if_false]
  rw [hform] at hres
  obtain rfl := (Option.some_inj.mp hres).symm
  have hvalid' : ∀ t ∈ m.trilist, t.a < mask.length ∧
      t.b < mask.length ∧ t.c < mask.length := by
    intro t ht
    rw [hlen]
    exact hvalid t ht
  have hAA := masked_adj_idem mask m.trilist hvalid'
  rw [hAA]
  set A := mask_adjacency_array mask m.trilist with hAdef
  have hPsub : ∀ v, in_tris v A = true → v < m.points.length := by
    intro v hv
    obtain ⟨t, htA, hvt⟩ := (in_tris_iff v A).mp hv
    have htl : t ∈ m.trilist := List.mem_of_mem_filter htA
    obtain ⟨ha, hb, hc⟩ := hvalid t htl
    rcases hvt with h | h | h <;> rw [h] <;> assumption
  have hfin : (setOf fun v => in_tris v A = true).Finite :=
    (Set.finite_Iio m.points.length).subset fun v hv => hPsub v hv
  have hcard : hfin.toFinset.card =
      Nat.count (fun v => in_tris v A = true) m.points.length := by
    have hft : hfin.toFinset =
        {x ∈ Finset.range m.points.length | in_tris x A = true} := by
      ext v
      simp only [Set.Finite.mem_toFinset, Set.mem_setOf_eq,
        Finset.mem_filter, Finset.mem_range]
      exact ⟨fun h => ⟨hPsub v h, h⟩, fun h => h.2⟩
    rw [Nat.count_eq_card_filter_range, hft]
  have hptslen : (boolSelect m.points (isolated_mask mask m.trilist)).length =
      Nat.count (fun v => in_tris v A = true) m.points.length := by
    rw [boolSelect_length m.points _ (by simp [isolated_mask, hlen]),
      isolated_mask, List.countP_map, hlen]
    unfold Nat.count
    apply countP_congr_mem
    intro v _
    simp only [Function.comp_apply]
    rw [Bool.decide_coe]
    exact maskGet_and_in_tris mask m.trilist v
  intro j hj
  rw [hptslen] at hj
  have hlt : ∀ hf : (setOf fun v => in_tris v A = true).Finite,
      j < hf.toFinset.card := by
    intro hf
    have hsame : hf.toFinset = hfin.toFinset := by
      ext v
      simp [Set.Finite.mem_toFinset]
    rw [hsame, hcard]
    exact hj
  have hPnth : in_tris (Nat.nth (fun v => in_tris v A = true) j) A = true :=
    Nat.nth_mem j hlt
  have hcnt : Nat.count (fun v => in_tris v A = true)
      (Nat.nth (fun v => in_tris v A = true) j) = j :=
    Nat.count_nth hlt
  obtain ⟨t, htA, hvt⟩ := (in_tris_iff _ A).mp hPnth
  refine ⟨⟨remap_index A t.a, remap_index A t.b, remap_index A t.c⟩,
    List.mem_map_of_mem _ htA, ?_⟩
  have hremap : remap_index A (Nat.nth (fun v => in_tris v A = true) j)
      = j := by
    have hcnt' : (List.range
        (Nat.nth (fun v => in_tris v A = true) j)).countP
          (fun b => decide (in_tris b A = true)) = j := hcnt
    rw [remap_index, ← List.countP_eq_length_filter,
      countP_congr_mem fun u _ => (Bool.decide_coe (in_tris u A)).symm]
    exact hcnt'
  rcases hvt with h | h | h
  · left
    rw [← h]
    exact hremap.symm
  · right
    left
    rw [← h]
    exact hremap.symm
  · right
    right
    rw [← h]
    exact hremap.symm

/-- A two-triangle strip on four points. -/
def fullStrip : TriMesh ℕ :=
  { points := [10, 20, 30, 40], trilist := [⟨0, 1, 2⟩, ⟨1, 2, 3⟩] }

/-- The strip after masking away its first point. -/
def maskedStrip : TriMesh ℕ :=
  { points := [20, 30, 40], trilist := [⟨0, 1, 2⟩] }

/-- Closed instance of `C2_from_mask_no_orphans`: masking away point 0 of a
two-triangle strip drops one triangle, keeps no isolated point, and point 0
of the result lies in the surviving renumbered triangle. -/
theorem C2_from_mask_no_orphans_witness :
    ∃ t ∈ maskedStrip.trilist, 0 = t.a ∨ 0 = t.b ∨ 0 = t.c :=
  C2_from_mask_no_orphans fullStrip [false, true, true, true] rfl
    (by decide) ⟨0, by decide, rfl⟩ maskedStrip (by decide) 0 (by decide)
